import Mathlib

/-!
Verification of the asynchronous operation scheduler of `node-sqlite3`
(`src/database.cc`, `src/statement.cc`, `src/macros.h`, `src/async.h`).

The connection-level scheduler (`Database::Schedule` / `Database::Process`),
the statement-level scheduler (`Statement::Schedule` / `Statement::Process` /
`Statement::CleanQueue` / `Statement::Finalize`) and the streaming consumer
(`Statement::Work_Each` / `Statement::AsyncEach`) are embedded as pure state
transformers.  Work items are opaque; only the data the scheduler inspects is
kept: the exclusivity flag stored in each `Call`, whether the item's baton
carries a completion callback, and whether the item's `Work_Begin` function
increments the database's `pending` counter when it dispatches to the thread
pool (true for statement work such as `Work_BeginPrepare` / `STATEMENT_BEGIN`,
false for the connection-level operations `Work_BeginExec`, `Work_BeginClose`,
`Work_Wait`, `Work_BeginLoadExtension` and the synchronous configure
callbacks, all of which assert `pending == 0` instead).
-/

namespace NodeSqlite3

/-- A work item as seen by `Database::Schedule`: `exclusive` is the flag
stored in the `Call`, `dispatch` records whether the item's `Work_Begin`
callback increments `db->pending` (statement work does, connection-level
work does not), `hasCb` records whether the baton's callback is a function. -/
structure Item where
  id : Nat
  exclusive : Bool
  dispatch : Bool
  hasCb : Bool
deriving DecidableEq, Repr

/-- The `Database` scheduler state: `open`, `locked`, `pending`, `serialize`
and the FIFO `queue` fields of `class Database` (database.h). -/
structure DbState where
  isOpen : Bool
  locked : Bool
  pending : Nat
  serialize : Bool
  queue : List Item
deriving DecidableEq, Repr

/-- Observable effects of a scheduler step: invoking an item's blocking
callback (`call->callback(call->baton)`, recording the value of `pending`
at the moment of the decision), invoking a baton's completion callback with
an error (`TRY_CATCH_CALL` with the exception), or emitting an `error`
event on the database object (`EMIT_EVENT`). -/
inductive Ev where
  | run (it : Item) (pendingBefore : Nat)
  | cbErr (id : Nat)
  | emitErr
deriving DecidableEq, Repr

/-- The items whose blocking callback was invoked, in invocation order. -/
def runsOf (evs : List Ev) : List Item :=
  evs.filterMap fun e =>
    match e with
    | Ev.run it _ => some it
    | _ => none

/-- Effect of starting a work item: `Database::Schedule` / `Database::Process`
assign `locked = call->exclusive` and then invoke the work callback, which
increments `pending` exactly when the item dispatches statement work
(`Work_BeginPrepare`, `STATEMENT_BEGIN`). -/
def startItem (it : Item) (s : DbState) : DbState :=
  { s with locked := it.exclusive,
           pending := s.pending + (if it.dispatch then 1 else 0) }

/-- The closed-database branch of `Database::Process` (database.cc:33-60):
pop every queued item, invoking its callback with the "Database handle is
closed" error when it is a function; if no callback could be called, emit
one `error` event. -/
def cleanDb (s : DbState) : DbState × List Ev :=
  ({ s with queue := [] },
   (s.queue.filterMap fun it => if it.hasCb then some (Ev.cbErr it.id) else none)
     ++ (if s.queue.any (fun it => it.hasCb) then [] else [Ev.emitErr]))

/-- The drain loop of `Database::Process` (database.cc:62-75), with fuel
bounded by the queue length (each iteration pops one item and never pushes). -/
def processGo : Nat → DbState → DbState × List Ev
  | 0, s => (s, [])
  | fuel + 1, s =>
    if s.isOpen = true ∧ (s.locked = false ∨ s.pending = 0) then
      match s.queue with
      | [] => (s, [])
      | it :: rest =>
        if it.exclusive = true ∧ 0 < s.pending then (s, [])
        else
          let s1 := startItem it { s with queue := rest }
          if it.exclusive then (s1, [Ev.run it s.pending])
          else
            let r := processGo fuel s1
            (r.1, Ev.run it s.pending :: r.2)
    else (s, [])

/-- `Database::Process` (database.cc:30-76). -/
def process (s : DbState) : DbState × List Ev :=
  if s.isOpen = false ∧ s.locked = true ∧ s.queue ≠ [] then cleanDb s
  else processGo s.queue.length s

/-- `Database::Schedule` (database.cc:78-102).  Note database.cc:96: an item
is enqueued with exclusivity `exclusive || serialize`. -/
def schedule (it : Item) (s : DbState) : DbState × List Ev :=
  if s.isOpen = false ∧ s.locked = true then
    (s, [if it.hasCb then Ev.cbErr it.id else Ev.emitErr])
  else if s.isOpen = false ∨ ((s.locked = true ∨ it.exclusive = true ∨ s.serialize = true) ∧ 0 < s.pending) then
    ({ s with queue := s.queue ++ [{ it with exclusive := it.exclusive || s.serialize }] }, [])
  else
    (startItem it s, [Ev.run it s.pending])

/-- `Database::Serialize` (database.cc:285-303): save `serialize`, set it to
`true`; when a callback function was passed run it and restore the saved
value; finally call `Process`.  The callback is an opaque re-entrant state
transformer. -/
def serializeMethod (hasCb : Bool) (body : DbState → DbState) (s : DbState) :
    DbState × List Ev :=
  let before := s.serialize
  let s1 := { s with serialize := true }
  let s2 := if hasCb then { body s1 with serialize := before } else s1
  process s2

/-- `Database::Parallelize` (database.cc:305-323): same as `Serialize` with
`serialize` set to `false`. -/
def parallelizeMethod (hasCb : Bool) (body : DbState → DbState) (s : DbState) :
    DbState × List Ev :=
  let before := s.serialize
  let s1 := { s with serialize := false }
  let s2 := if hasCb then { body s1 with serialize := before } else s1
  process s2

/-- State of a freshly constructed `Database` (database.h:102-111). -/
def dbInit : DbState :=
  { isOpen := false, locked := false, pending := 0, serialize := false, queue := [] }

/-- A step of the connection-level scheduler: a client submission
(`Database::Schedule`; the well-formedness hypothesis records that in the
code every exclusive submission is a connection-level operation whose
`Work_Begin` does not touch `pending`), a bare drain
(`Database::Process`, also performed by the completion of an exclusive
operation such as `Work_AfterExec`), the completion of a dispatched
statement operation (`STATEMENT_END`: `pending--` then `Process`), a
successful open completion (`Work_AfterOpen`: `open = true` then `Process`)
or a successful close completion (`Work_AfterClose`: `open = false`,
`locked` left set, then `Process`). -/
inductive DbStep : DbState → DbState → Prop
  | submit (s : DbState) (it : Item) (hwf : it.exclusive = true → it.dispatch = false) :
      DbStep s (schedule it s).1
  | drain (s : DbState) : DbStep s (process s).1
  | completeWork (s : DbState) (h : 0 < s.pending) :
      DbStep s (process { s with pending := s.pending - 1 }).1
  | openDone (s : DbState) : DbStep s (process { s with isOpen := true }).1
  | closeDone (s : DbState) : DbStep s (process { s with isOpen := false }).1

/-- States of the connection-level scheduler reachable from the initial
state by submit, drain and completion steps. -/
def DbReach (s : DbState) : Prop :=
  Relation.ReflTransGen DbStep dbInit s

/-! ## Statement-level scheduler (`src/statement.cc`) -/

/-- A statement-level work item: `Statement::Schedule`'s `Call` carries no
exclusivity flag; the scheduler only ever inspects whether the baton's
callback is a function. -/
structure SItem where
  id : Nat
  hasCb : Bool
deriving DecidableEq, Repr

/-- The `Statement` scheduler state (`prepared`, `locked`, `finalized` and
the FIFO `queue` of `class Statement`), together with the parent
database's `pending` counter, which `STATEMENT_BEGIN` increments and
`STATEMENT_END` decrements. -/
structure StmtState where
  prepared : Bool
  locked : Bool
  finalized : Bool
  dbPending : Nat
  queue : List SItem
deriving DecidableEq, Repr

/-- Observable effects of a statement scheduler step. -/
inductive SEv where
  | runS (id : Nat)
  | cbErrS (id : Nat)
  | emitErrS
deriving DecidableEq, Repr

/-- `Statement::CleanQueue` (statement.cc:874-922): if the statement was
prepared and items are queued, invoke each queued item's callback (when it
is a function) with the "Statement is already finalized" error, in queue
order, and emit a single `error` event when no callback could be called;
otherwise silently discard every queued item. -/
def stmtCleanQueue (s : StmtState) : StmtState × List SEv :=
  if s.prepared = true ∧ s.queue ≠ [] then
    ({ s with queue := [] },
     (s.queue.filterMap fun it => if it.hasCb then some (SEv.cbErrS it.id) else none)
       ++ (if s.queue.any (fun it => it.hasCb) then [] else [SEv.emitErrS]))
  else ({ s with queue := [] }, [])

/-- `Statement::Finalize()` (statement.cc:863-872): set `finalized` and
clean the queue (the sqlite3 handle release and `db->Unref()` have no
scheduler-visible effect). -/
def stmtFinalize (s : StmtState) : StmtState × List SEv :=
  stmtCleanQueue { s with finalized := true }

/-- Effect of running a statement work item: `STATEMENT_BEGIN`
(macros.h:118-129) sets `locked = true` and increments `db->pending`
before dispatching to the thread pool. -/
def stmtStart (_it : SItem) (s : StmtState) : StmtState :=
  { s with locked := true, dbPending := s.dbPending + 1 }

/-- `Statement::Schedule` (statement.cc:44-55). -/
def stmtSchedule (it : SItem) (s : StmtState) : StmtState × List SEv :=
  if s.finalized = true then
    stmtCleanQueue { s with queue := s.queue ++ [it] }
  else if s.prepared = false ∨ s.locked = true then
    ({ s with queue := s.queue ++ [it] }, [])
  else
    (stmtStart it s, [SEv.runS it.id])

/-- The drain loop of `Statement::Process` (statement.cc:35-41): running an
item sets `locked`, so the loop re-checks its condition after each pop. -/
def stmtProcessGo : Nat → StmtState → StmtState × List SEv
  | 0, s => (s, [])
  | fuel + 1, s =>
    if s.prepared = true ∧ s.locked = false then
      match s.queue with
      | [] => (s, [])
      | it :: rest =>
        let s1 := stmtStart it { s with queue := rest }
        let r := stmtProcessGo fuel s1
        (r.1, SEv.runS it.id :: r.2)
    else (s, [])

/-- `Statement::Process` (statement.cc:30-42). -/
def stmtProcess (s : StmtState) : StmtState × List SEv :=
  if s.finalized = true ∧ s.queue ≠ [] then stmtCleanQueue s
  else stmtProcessGo s.queue.length s

/-! ## Streaming aggregator (`Statement::Work_Each` / `Statement::AsyncEach`)

The producer (`Work_Each`, worker thread) and the consumer (`AsyncEach`,
single-threaded loop) are embedded as an interleaving transition system
whose atomic actions are exactly the code's mutex-protected buffer
operations (`async->data.push_back` under `NODE_SQLITE3_MUTEX_LOCK`,
`rows.swap(async->data)` under the same mutex) and its unprotected
accesses (`async->completed`), plus one action per delivered row. -/

/-- Program counter of the consumer within one `AsyncEach` invocation:
outside any invocation, at the top of the swap loop, delivering a swapped
batch, or past the loop at the `async->completed` check. -/
inductive EachPC where
  | idle
  | loopTop
  | delivering (rows : List Nat)
  | afterLoop
deriving DecidableEq, Repr

/-- Joint state of the streaming producer and consumer.  `toEmit` holds the
rows the statement will still produce; `buffer` is `async->data`;
`completed` is `async->completed`; `retrieved` is `async->retrieved`;
`delivered` (ghost) lists the rows passed to the item callback in order;
`terminalCounts` (ghost) lists the counts reported by each invocation of
the completion callback; `closed` records that `uv_close` ran;
`wakeupPending` models the pending flag of `uv_async_send`. -/
structure EachState where
  toEmit : List Nat
  buffer : List Nat
  completed : Bool
  retrieved : Nat
  delivered : List Nat
  terminalCounts : List Nat
  closed : Bool
  wakeupPending : Bool
  itemCb : Bool
  completedCb : Bool
  pc : EachPC
deriving DecidableEq, Repr

/-- The atomic actions of the streaming system. -/
inductive EachAct where
  | produceRow
  | produceDone
  | startWakeup
  | swapStep
  | deliverOne
  | checkDone
deriving DecidableEq, Repr

/-- One atomic step of the streaming system; `none` when the action is not
enabled.
* `produceRow`: statement.cc:636-645 — push the next row into the shared
  buffer under the mutex and `uv_async_send`.
* `produceDone`: statement.cc:657-658 — after the last row, set
  `async->completed = true` and `uv_async_send`.
* `startWakeup`: libuv invokes `AsyncEach` after a send, unless the handle
  was closed; sends coalesce into one pending flag.
* `swapStep`: statement.cc:676-686 — swap the whole buffer out under the
  mutex; leave the loop when it was empty; when the item callback is not a
  function the swapped rows are dropped and the loop continues.
* `deliverOne`: statement.cc:690-697 — `async->retrieved++` and invoke the
  item callback for the next swapped row.
* `checkDone`: statement.cc:701-712 — after the loop, if `async->completed`
  invoke the completion callback (when it is a function) with
  `async->retrieved` and `uv_close` the handle. -/
def eachStep (a : EachAct) (s : EachState) : Option EachState :=
  match a with
  | EachAct.produceRow =>
    match s.toEmit with
    | [] => none
    | r :: rest =>
      some { s with toEmit := rest, buffer := s.buffer ++ [r], wakeupPending := true }
  | EachAct.produceDone =>
    if s.toEmit = [] ∧ s.completed = false then
      some { s with completed := true, wakeupPending := true }
    else none
  | EachAct.startWakeup =>
    if s.pc = EachPC.idle ∧ s.wakeupPending = true ∧ s.closed = false then
      some { s with wakeupPending := false, pc := EachPC.loopTop }
    else none
  | EachAct.swapStep =>
    if s.pc = EachPC.loopTop then
      some (if s.buffer = [] then { s with pc := EachPC.afterLoop }
            else if s.itemCb then { s with buffer := [], pc := EachPC.delivering s.buffer }
            else { s with buffer := [], pc := EachPC.loopTop })
    else none
  | EachAct.deliverOne =>
    match s.pc with
    | EachPC.delivering (r :: rest) =>
      some { s with retrieved := s.retrieved + 1,
                    delivered := s.delivered ++ [r],
                    pc := if rest = [] then EachPC.loopTop else EachPC.delivering rest }
    | _ => none
  | EachAct.checkDone =>
    if s.pc = EachPC.afterLoop then
      some (if s.completed then
              { s with terminalCounts :=
                         s.terminalCounts ++ (if s.completedCb then [s.retrieved] else []),
                       closed := true, pc := EachPC.idle }
            else { s with pc := EachPC.idle })
    else none

/-- Initial state of a streaming operation producing `rows`, with or
without an item callback and a completion callback. -/
def eachInit (rows : List Nat) (itemCb completedCb : Bool) : EachState :=
  { toEmit := rows, buffer := [], completed := false, retrieved := 0,
    delivered := [], terminalCounts := [], closed := false,
    wakeupPending := false, itemCb := itemCb, completedCb := completedCb,
    pc := EachPC.idle }

/-- Run a sequence of actions from a state, failing when one is disabled. -/
def eachRun (acts : List EachAct) (s : EachState) : Option EachState :=
  acts.foldlM (fun st a => eachStep a st) s

/-- One step of the streaming system, as a relation. -/
def EachStep (s t : EachState) : Prop :=
  ∃ a, eachStep a s = some t

/-- Reachability in the streaming system. -/
def EachReach (rows : List Nat) (itemCb completedCb : Bool) (s : EachState) : Prop :=
  Relation.ReflTransGen EachStep (eachInit rows itemCb completedCb) s

/-- The spec's version of the consumer's terminal check (for claim C3 the
drain loop; this one is for claim C7's divergence): spec section 4.3 fires
the terminal callback only when the producer is done AND the buffer is now
empty, while `AsyncEach` (statement.cc:702) checks only `async->completed`.
This definition differs from `eachStep` exactly in the `checkDone` arm. -/
def eachStepSpec (a : EachAct) (s : EachState) : Option EachState :=
  match a with
  | EachAct.checkDone =>
    if s.pc = EachPC.afterLoop then
      some (if s.completed ∧ s.buffer = [] then
              { s with terminalCounts :=
                         s.terminalCounts ++ (if s.completedCb then [s.retrieved] else []),
                       closed := true, pc := EachPC.idle }
            else { s with pc := EachPC.idle })
    else none
  | _ => eachStep a s

/-- Run a sequence of actions under the spec's consumer. -/
def eachRunSpec (acts : List EachAct) (s : EachState) : Option EachState :=
  acts.foldlM (fun st a => eachStepSpec a st) s

/-- The drain pass written from the spec's own words (claim C3): "while
resource is open AND (not is_locked OR pending_count == 0) AND queue
non-empty: peek the head item; if it is exclusive and pending_count > 0,
stop draining.  Otherwise pop it, set is_locked = item.exclusive, run it;
if it was exclusive, stop draining." -/
def drainPassSpec : Nat → DbState → DbState × List Ev
  | 0, s => (s, [])
  | fuel + 1, s =>
    if s.isOpen = true ∧ (s.locked = false ∨ s.pending = 0) ∧ s.queue ≠ [] then
      match s.queue with
      | [] => (s, [])
      | head :: rest =>
        if head.exclusive = true ∧ 0 < s.pending then (s, [])
        else
          let s1 := startItem head { s with queue := rest }
          if head.exclusive then (s1, [Ev.run head s.pending])
          else
            let r := drainPassSpec fuel s1
            (r.1, Ev.run head s.pending :: r.2)
    else (s, [])

/-- Number of exclusive items among the blocking callbacks invoked. -/
def exclRuns (evs : List Ev) : Nat :=
  (runsOf evs).countP fun it => it.exclusive

/-! ## End-to-end serialized runs (claim C8)

The whole system is tracked: the database state, the multiset of items
whose blocking portion is running on the thread pool (`inflight`), and two
ghost histories: ids in submission order and ids in completion-callback
order. -/

/-- Whole-system state for order-of-completion claims. -/
structure Sys where
  db : DbState
  inflight : List Item
  submitted : List Nat
  completedIds : List Nat
deriving DecidableEq, Repr

/-- A client submission: `Database::Schedule`, with any item the scheduler
starts added to the in-flight set and the id recorded in submission
order. -/
def submitSys (it : Item) (σ : Sys) : Sys :=
  let r := schedule it σ.db
  ⟨r.1, σ.inflight ++ runsOf r.2, σ.submitted ++ [it.id], σ.completedIds⟩

/-- Completion of an in-flight item: its completion callback fires
(recorded in completion order), `pending` is decremented when the item had
dispatched statement work (`STATEMENT_END`), and `Database::Process`
drains, possibly starting further items. -/
def completeSys (it : Item) (σ : Sys) : Sys :=
  let db1 := if it.dispatch then { σ.db with pending := σ.db.pending - 1 } else σ.db
  let r := process db1
  ⟨r.1, σ.inflight.erase it ++ runsOf r.2, σ.submitted, σ.completedIds ++ [it.id]⟩

/-- A statement-work submission as it reaches `Database::Schedule`:
non-exclusive, dispatching (its `Work_Begin` increments `pending`), with a
completion callback. -/
def serItem (id : Nat) : Item :=
  ⟨id, false, true, true⟩

/-- Steps available in a serialized workload: submit a statement-work item,
or complete an in-flight item. -/
inductive SerStep : Sys → Sys → Prop
  | submit (σ : Sys) (id : Nat) : SerStep σ (submitSys (serItem id) σ)
  | complete (σ : Sys) (it : Item) (h : it ∈ σ.inflight) : SerStep σ (completeSys it σ)

/-- An open, quiescent database with `serialize` on. -/
def serInit : Sys :=
  ⟨{ isOpen := true, locked := false, pending := 0, serialize := true, queue := [] }, [], [], []⟩

/-- Reachability of whole-system states in a serialized run. -/
def SerReach (σ : Sys) : Prop :=
  Relation.ReflTransGen SerStep serInit σ

/-! ## Helper lemmas -/

theorem runsOf_nil : runsOf [] = [] := rfl

theorem runsOf_cbErr (i : Nat) (evs : List Ev) :
    runsOf (Ev.cbErr i :: evs) = runsOf evs := rfl

theorem runsOf_filterMap_cbErr (q : List Item) :
    runsOf (q.filterMap fun it => if it.hasCb then some (Ev.cbErr it.id) else none) = [] := by
  induction q with
  | nil => rfl
  | cons a t ih =>
    cases h : a.hasCb <;> simp [List.filterMap_cons, h, runsOf, List.filterMap] at ih ⊢ <;>
      simpa [runsOf, List.filterMap] using ih

theorem startItem_locked (it : Item) (s : DbState) :
    (startItem it s).locked = it.exclusive := rfl

theorem startItem_serialize (it : Item) (s : DbState) :
    (startItem it s).serialize = s.serialize := rfl

theorem processGo_serialize (fuel : Nat) :
    ∀ s : DbState, ((processGo fuel s).1).serialize = s.serialize := by
  induction fuel with
  | zero => intro s; rfl
  | succ n ih =>
    intro s
    simp only [processGo]
    split
    · cases hq : s.queue with
      | nil => rfl
      | cons it rest =>
        simp only
        split
        · rfl
        · by_cases hex : it.exclusive
          · simp [hex, startItem]
          · simp only [hex, if_false]
            exact ih _
    · rfl

theorem process_serialize (s : DbState) :
    ((process s).1).serialize = s.serialize := by
  unfold process
  split
  · rfl
  · exact processGo_serialize _ s

/-! ## Claims -/

/-- C1: submitting a work item while the database is permanently closed
(`!open && locked`, database.cc:81-93) leaves the whole state — queue,
flags and pending count — unchanged, never invokes the item's blocking
callback, and resolves the item synchronously: its completion callback is
called with the "Database is closed" error when it is a function, and an
`error` event is emitted on the database otherwise. -/
theorem closed_submission_rejected (s : DbState) (it : Item)
    (hOpen : s.isOpen = false) (hLock : s.locked = true) :
    (schedule it s).1 = s ∧
    (schedule it s).2 = [if it.hasCb then Ev.cbErr it.id else Ev.emitErr] ∧
    runsOf (schedule it s).2 = [] := by
  have heq : schedule it s = (s, [if it.hasCb then Ev.cbErr it.id else Ev.emitErr]) := by
    unfold schedule
    rw [if_pos ⟨hOpen, hLock⟩]
  rw [heq]
  refine ⟨rfl, rfl, ?_⟩
  cases it.hasCb <;> rfl

/-- Witness for C1 at a concrete closed state. -/
theorem closed_submission_rejected_witness :
    (schedule ⟨1, false, true, true⟩ ⟨false, true, 0, false, []⟩).1
        = (⟨false, true, 0, false, []⟩ : DbState) ∧
    (schedule ⟨1, false, true, true⟩ ⟨false, true, 0, false, []⟩).2 = [Ev.cbErr 1] ∧
    runsOf (schedule ⟨1, false, true, true⟩ ⟨false, true, 0, false, []⟩).2 = [] :=
  closed_submission_rejected ⟨false, true, 0, false, []⟩ ⟨1, false, true, true⟩ rfl rfl

/-- C4: on a database that is not permanently closed, `Database::Schedule`
(database.cc:95-102) appends the item at the tail of the queue — recording
exclusivity `exclusive || serialize` — and changes no state flag, exactly
when the database is not open or `(locked || exclusive || serialize) &&
pending > 0`; otherwise it runs the item immediately, setting `locked` to
the item's exclusive flag (the dispatch to the pool bumping `pending` for
statement work), leaving the queue untouched. -/
theorem schedule_queue_or_run (s : DbState) (it : Item)
    (hnc : ¬(s.isOpen = false ∧ s.locked = true)) :
    (s.isOpen = false ∨ ((s.locked = true ∨ it.exclusive = true ∨ s.serialize = true) ∧ 0 < s.pending) →
      schedule it s =
        ({ s with queue := s.queue ++ [{ it with exclusive := it.exclusive || s.serialize }] }, [])
      ∧ (schedule it s).1.isOpen = s.isOpen ∧ (schedule it s).1.locked = s.locked
      ∧ (schedule it s).1.pending = s.pending ∧ (schedule it s).1.serialize = s.serialize) ∧
    (¬(s.isOpen = false ∨ ((s.locked = true ∨ it.exclusive = true ∨ s.serialize = true) ∧ 0 < s.pending)) →
      schedule it s = (startItem it s, [Ev.run it s.pending])
      ∧ (schedule it s).1.locked = it.exclusive
      ∧ (schedule it s).1.queue = s.queue) := by
  constructor
  · intro hcond
    have heq : schedule it s =
        ({ s with queue := s.queue ++ [{ it with exclusive := it.exclusive || s.serialize }] }, []) := by
      unfold schedule
      rw [if_neg hnc, if_pos hcond]
    rw [heq]
    exact ⟨rfl, rfl, rfl, rfl, rfl⟩
  · intro hcond
    have heq : schedule it s = (startItem it s, [Ev.run it s.pending]) := by
      unfold schedule
      rw [if_neg hnc, if_neg hcond]
    rw [heq]
    exact ⟨rfl, rfl, rfl⟩

/-- Witness for C4: an open serialized database with one operation in
flight queues a non-exclusive item with exclusivity promoted to `true`; an
open idle database runs an exclusive item immediately. -/
theorem schedule_queue_or_run_witness :
    (schedule ⟨2, false, true, true⟩ ⟨true, false, 1, true, []⟩ =
      ({ isOpen := true, locked := false, pending := 1, serialize := true,
         queue := [⟨2, true, true, true⟩] }, [])) ∧
    (schedule ⟨3, true, false, true⟩ ⟨true, false, 0, false, []⟩ =
      ({ isOpen := true, locked := true, pending := 0, serialize := false, queue := [] },
       [Ev.run ⟨3, true, false, true⟩ 0])) := by
  constructor
  · exact ((schedule_queue_or_run ⟨true, false, 1, true, []⟩ ⟨2, false, true, true⟩
      (by simp)).1 (by simp)).1
  · exact ((schedule_queue_or_run ⟨true, false, 0, false, []⟩ ⟨3, true, false, true⟩
      (by simp)).2 (by simp)).1

/-- C9: `Database::Serialize` / `Database::Parallelize`
(database.cc:285-323).  With a function callback the mode is set only for
the synchronous callback's duration — whatever the callback does, the
previous `serialize` value is restored before the drain, and the drain
leaves it alone; without a callback the change persists.  In all four
cases the method ends by running a drain pass (`Process`). -/
theorem serialize_parallelize_scoped (s : DbState) (body : DbState → DbState) :
    ((serializeMethod true body s).1.serialize = s.serialize
      ∧ serializeMethod true body s
          = process { body { s with serialize := true } with serialize := s.serialize }) ∧
    ((serializeMethod false body s).1.serialize = true
      ∧ serializeMethod false body s = process { s with serialize := true }) ∧
    ((parallelizeMethod true body s).1.serialize = s.serialize
      ∧ parallelizeMethod true body s
          = process { body { s with serialize := false } with serialize := s.serialize }) ∧
    ((parallelizeMethod false body s).1.serialize = false
      ∧ parallelizeMethod false body s = process { s with serialize := false }) := by
  refine ⟨⟨?_, rfl⟩, ⟨?_, rfl⟩, ⟨?_, rfl⟩, ⟨?_, rfl⟩⟩
  · show ((process { body { s with serialize := true } with serialize := s.serialize }).1).serialize
        = s.serialize
    rw [process_serialize]
  · show ((process { s with serialize := true }).1).serialize = true
    rw [process_serialize]
  · show ((process { body { s with serialize := false } with serialize := s.serialize }).1).serialize
        = s.serialize
    rw [process_serialize]
  · show ((process { s with serialize := false }).1).serialize = false
    rw [process_serialize]

theorem processGo_eq_drainPassSpec (fuel : Nat) :
    ∀ s : DbState, processGo fuel s = drainPassSpec fuel s := by
  induction fuel with
  | zero => intro s; rfl
  | succ n ih =>
    intro s
    simp only [processGo, drainPassSpec]
    cases hq : s.queue with
    | nil =>
      by_cases hcond : s.isOpen = true ∧ (s.locked = false ∨ s.pending = 0) <;>
        simp [hcond]
    | cons it rest =>
      by_cases hcond : s.isOpen = true ∧ (s.locked = false ∨ s.pending = 0)
      · rw [if_pos hcond, if_pos ⟨hcond.1, hcond.2, by simp⟩]
        split
        · rfl
        · by_cases hex : it.exclusive <;> simp [hex, ih]
      · rw [if_neg hcond, if_neg (by tauto)]

theorem exclRuns_processGo (fuel : Nat) :
    ∀ s : DbState, exclRuns (processGo fuel s).2 ≤ 1 := by
  induction fuel with
  | zero => intro s; simp [processGo, exclRuns, runsOf]
  | succ n ih =>
    intro s
    simp only [processGo]
    split
    · cases hq : s.queue with
      | nil => simp [exclRuns, runsOf]
      | cons it rest =>
        simp only
        split
        · simp [exclRuns, runsOf]
        · by_cases hex : it.exclusive
          · simp [hex, exclRuns, runsOf, List.filterMap]
          · simp only [hex, Bool.false_eq_true, if_false]
            have h := ih (startItem it { s with queue := rest })
            simp only [exclRuns, runsOf, List.filterMap_cons] at h ⊢
            simpa [List.countP_cons, hex] using h
    · simp [exclRuns, runsOf]

/-- C3: on an open database, a drain pass (`Database::Process`,
database.cc:62-76) is exactly the loop described by the spec — while open
and (not locked or pending = 0) and the queue is non-empty, peek the head;
stop without popping when it is exclusive and pending > 0; otherwise pop,
set `locked` to its exclusive flag and run it, stopping the pass right
after an exclusive item — and consequently at most one exclusive item runs
per pass. -/
theorem drain_pass_refines_spec (s : DbState) (hOpen : s.isOpen = true) :
    process s = drainPassSpec s.queue.length s ∧ exclRuns (process s).2 ≤ 1 := by
  have hp : process s = processGo s.queue.length s := by
    unfold process
    rw [if_neg (by simp [hOpen])]
  constructor
  · rw [hp, processGo_eq_drainPassSpec]
  · rw [hp]; exact exclRuns_processGo _ s

/-- Witness for C3 on a concrete open state with a non-exclusive item in
front of an exclusive one. -/
theorem drain_pass_refines_spec_witness :
    process ⟨true, false, 0, false, [⟨1, false, true, true⟩, ⟨2, true, false, true⟩]⟩
      = drainPassSpec 2 ⟨true, false, 0, false, [⟨1, false, true, true⟩, ⟨2, true, false, true⟩]⟩ ∧
    exclRuns (process ⟨true, false, 0, false,
      [⟨1, false, true, true⟩, ⟨2, true, false, true⟩]⟩).2 ≤ 1 :=
  drain_pass_refines_spec
    ⟨true, false, 0, false, [⟨1, false, true, true⟩, ⟨2, true, false, true⟩]⟩ rfl

theorem filterMap_cbErrS (q : List SItem) :
    (q.filterMap fun it => if it.hasCb then some (SEv.cbErrS it.id) else none)
      = (q.filter fun it => it.hasCb).map fun it => SEv.cbErrS it.id := by
  induction q with
  | nil => rfl
  | cons a t ih => cases h : a.hasCb <;> simp [List.filterMap_cons, List.filter_cons, h, ih]

theorem stmtCleanQueue_queue (s : StmtState) : (stmtCleanQueue s).1.queue = [] := by
  unfold stmtCleanQueue
  split <;> rfl

/-- C5: `Statement::Finalize` on a statement with queued items
(statement.cc:863-872, 874-922) empties the queue, resolving every queued
item exactly once: when the statement had successfully prepared, the event
trace is precisely one "Statement is already finalized" callback error per
queued item that carries a function callback, in arrival order, followed
by a single `error` event exactly when no queued item carried a callback;
when preparation never succeeded, the queued items are discarded silently
with no callback and no event. -/
theorem finalize_cleans_queue (s : StmtState)
    (_hf : s.finalized = false) (hq : s.queue ≠ []) :
    (stmtFinalize s).1.finalized = true ∧
    (stmtFinalize s).1.queue = [] ∧
    (s.prepared = true →
      (stmtFinalize s).2 =
        ((s.queue.filter fun it => it.hasCb).map fun it => SEv.cbErrS it.id)
          ++ (if s.queue.any (fun it => it.hasCb) then [] else [SEv.emitErrS])) ∧
    (s.prepared = false → (stmtFinalize s).2 = []) := by
  unfold stmtFinalize stmtCleanQueue
  by_cases hp : s.prepared = true
  · rw [if_pos (show s.prepared = true ∧ s.queue ≠ [] from ⟨hp, hq⟩)]
    refine ⟨rfl, rfl, fun _ => ?_, fun hp2 => ?_⟩
    · rw [filterMap_cbErrS]
    · rw [hp2] at hp; exact absurd hp (by simp)
  · rw [if_neg (by simp [hp])]
    exact ⟨rfl, rfl, fun hp2 => absurd hp2 hp, fun _ => rfl⟩

/-- Witness for C5: a prepared, unfinalized statement with two queued
items, the first with a callback and the second without; the callbacked
item fails and no shared error event fires. -/
theorem finalize_cleans_queue_witness :
    (stmtFinalize ⟨true, false, false, 0, [⟨1, true⟩, ⟨2, false⟩]⟩).1.finalized = true ∧
    (stmtFinalize ⟨true, false, false, 0, [⟨1, true⟩, ⟨2, false⟩]⟩).1.queue = [] ∧
    (stmtFinalize ⟨true, false, false, 0, [⟨1, true⟩, ⟨2, false⟩]⟩).2 = [SEv.cbErrS 1] := by
  have h := finalize_cleans_queue ⟨true, false, false, 0, [⟨1, true⟩, ⟨2, false⟩]⟩ rfl (by simp)
  exact ⟨h.1, h.2.1, by rw [h.2.2.1 rfl]; rfl⟩

/-- C6: `Statement::Schedule` (statement.cc:44-55).  On a finalized
statement the item is enqueued and the queue immediately cleaned, so
(when the statement was prepared) earlier queued items fail their explicit
callbacks first, in arrival order, the new item failing last and the queue
ending empty; when unprepared or locked the item is appended FIFO with no
other change; otherwise it runs immediately and `STATEMENT_BEGIN`
(macros.h:118-129) sets `locked = true` and increments the parent's
pending count for the duration of the operation. -/
theorem stmt_schedule_cases (s : StmtState) (it : SItem) :
    (s.finalized = true →
      stmtSchedule it s = stmtCleanQueue { s with queue := s.queue ++ [it] } ∧
      (stmtSchedule it s).1.queue = [] ∧
      (s.prepared = true →
        (stmtSchedule it s).2 =
          (((s.queue ++ [it]).filter fun j => j.hasCb).map fun j => SEv.cbErrS j.id)
            ++ (if (s.queue ++ [it]).any (fun j => j.hasCb) then [] else [SEv.emitErrS]))) ∧
    (s.finalized = false → (s.prepared = false ∨ s.locked = true) →
      stmtSchedule it s = ({ s with queue := s.queue ++ [it] }, [])) ∧
    (s.finalized = false → s.prepared = true → s.locked = false →
      stmtSchedule it s = (stmtStart it s, [SEv.runS it.id]) ∧
      (stmtSchedule it s).1.locked = true ∧
      (stmtSchedule it s).1.dbPending = s.dbPending + 1) := by
  refine ⟨fun hf => ?_, fun hf hbl => ?_, fun hf hp hl => ?_⟩
  · have heq : stmtSchedule it s = stmtCleanQueue { s with queue := s.queue ++ [it] } := by
      unfold stmtSchedule
      rw [if_pos hf]
    refine ⟨heq, by rw [heq]; exact stmtCleanQueue_queue _, fun hp => ?_⟩
    rw [heq]
    unfold stmtCleanQueue
    rw [if_pos (show s.prepared = true ∧ s.queue ++ [it] ≠ [] from ⟨hp, by simp⟩)]
    rw [filterMap_cbErrS]
  · unfold stmtSchedule
    rw [if_neg (by simp [hf]), if_pos (by rcases hbl with h | h <;> simp [h])]
  · have heq : stmtSchedule it s = (stmtStart it s, [SEv.runS it.id]) := by
      unfold stmtSchedule
      rw [if_neg (by simp [hf]), if_neg (by simp [hp, hl])]
    exact ⟨heq, by rw [heq]; rfl, by rw [heq]; rfl⟩

/-- Witness for C6, exercising all three branches at concrete states. -/
theorem stmt_schedule_cases_witness :
    (stmtSchedule ⟨4, true⟩ ⟨true, false, true, 0, [⟨1, false⟩]⟩).2
        = [SEv.cbErrS 4] ∧
    stmtSchedule ⟨5, true⟩ ⟨false, false, false, 0, []⟩
        = ({ prepared := false, locked := false, finalized := false, dbPending := 0,
             queue := [⟨5, true⟩] }, []) ∧
    stmtSchedule ⟨6, true⟩ ⟨true, false, false, 2, []⟩
        = (stmtStart ⟨6, true⟩ ⟨true, false, false, 2, []⟩, [SEv.runS 6]) := by
  refine ⟨?_, ?_, ?_⟩
  · have h := ((stmt_schedule_cases ⟨true, false, true, 0, [⟨1, false⟩]⟩ ⟨4, true⟩).1 rfl).2.2 rfl
    rw [h]; rfl
  · exact (stmt_schedule_cases ⟨false, false, false, 0, []⟩ ⟨5, true⟩).2.1 rfl (Or.inl rfl)
  · exact ((stmt_schedule_cases ⟨true, false, false, 2, []⟩ ⟨6, true⟩).2.2 rfl rfl rfl).1

/-- The inductive invariant of the connection-level scheduler: exclusive
and non-exclusive work never overlap (`pending > 0` forces `locked`
false); `serialize` stays off, no step of the claim's step set changing
it; and every queued exclusive item is a connection-level operation whose
`Work_Begin` does not touch `pending`. -/
def DbInv (s : DbState) : Prop :=
  (0 < s.pending → s.locked = false) ∧ s.serialize = false ∧
  ∀ it ∈ s.queue, it.exclusive = true → it.dispatch = false

theorem dbInv_processGo (fuel : Nat) :
    ∀ s : DbState, DbInv s → DbInv (processGo fuel s).1 := by
  induction fuel with
  | zero => intro s h; exact h
  | succ n ih =>
    intro s h
    simp only [processGo]
    split
    · cases hq : s.queue with
      | nil => exact h
      | cons it rest =>
        simp only
        split
        · exact h
        · rename_i hne
          have hmem : it ∈ s.queue := by rw [hq]; exact List.mem_cons_self _ _
          have hrest : ∀ j ∈ rest, j.exclusive = true → j.dispatch = false := by
            intro j hj
            exact h.2.2 j (by rw [hq]; exact List.mem_cons_of_mem _ hj)
          by_cases hex : it.exclusive = true
          · have hdisp : it.dispatch = false := h.2.2 it hmem hex
            have hp0 : s.pending = 0 := by
              by_contra hp
              exact hne ⟨hex, Nat.pos_of_ne_zero hp⟩
            rw [if_pos hex]
            refine ⟨?_, h.2.1, hrest⟩
            intro hpos
            simp [startItem, hdisp, hp0] at hpos
          · rw [if_neg hex]
            apply ih
            refine ⟨?_, h.2.1, hrest⟩
            intro _
            simp [startItem, Bool.not_eq_true] at hex ⊢
            exact hex
    · exact h

theorem dbInv_cleanDb (s : DbState) (h : DbInv s) : DbInv (cleanDb s).1 := by
  refine ⟨h.1, h.2.1, ?_⟩
  intro it hit
  simp [cleanDb] at hit

theorem dbInv_process (s : DbState) (h : DbInv s) : DbInv (process s).1 := by
  unfold process
  split
  · exact dbInv_cleanDb s h
  · exact dbInv_processGo _ s h

theorem dbInv_schedule (s : DbState) (it : Item)
    (hwf : it.exclusive = true → it.dispatch = false) (h : DbInv s) :
    DbInv (schedule it s).1 := by
  obtain ⟨h1, h2, h3⟩ := h
  unfold schedule
  split
  · exact ⟨h1, h2, h3⟩
  · split
    · refine ⟨h1, h2, ?_⟩
      intro j hj
      rw [List.mem_append] at hj
      rcases hj with hj | hj
      · exact h3 j hj
      · rw [List.mem_singleton] at hj
        subst hj
        simp only [h2, Bool.or_false]
        exact hwf
    · rename_i hnc hncond
      refine ⟨?_, h2, h3⟩
      intro hpos
      by_cases hex : it.exclusive = true
      · have hdisp : it.dispatch = false := hwf hex
        have hp0 : s.pending = 0 := by
          by_contra hp
          exact hncond (Or.inr ⟨Or.inr (Or.inl hex), Nat.pos_of_ne_zero hp⟩)
        simp [startItem, hdisp, hp0] at hpos
      · simp [startItem, Bool.not_eq_true] at hex ⊢
        exact hex

theorem dbInv_step {s t : DbState} (hst : DbStep s t) (h : DbInv s) : DbInv t := by
  cases hst with
  | submit it hwf => exact dbInv_schedule s it hwf h
  | drain => exact dbInv_process s h
  | completeWork hp =>
    apply dbInv_process
    exact ⟨fun hpos => h.1 (by simp only at hpos ⊢; omega), h.2.1, h.2.2⟩
  | openDone =>
    apply dbInv_process
    exact ⟨h.1, h.2.1, h.2.2⟩
  | closeDone =>
    apply dbInv_process
    exact ⟨h.1, h.2.1, h.2.2⟩

theorem dbInv_init : DbInv dbInit :=
  ⟨fun hp => absurd hp (by simp [dbInit]), rfl, by intro it hit; simp [dbInit] at hit⟩

theorem dbInv_reach (s : DbState) (h : DbReach s) : DbInv s := by
  induction h with
  | refl => exact dbInv_init
  | tail _ hbc ih => exact dbInv_step hbc ih

theorem run_excl_pending_processGo (fuel : Nat) :
    ∀ (s : DbState) (j : Item) (pb : Nat), Ev.run j pb ∈ (processGo fuel s).2 →
      j.exclusive = true → pb = 0 := by
  induction fuel with
  | zero => intro s j pb h _; simp [processGo] at h
  | succ n ih =>
    intro s j pb h hex
    simp only [processGo] at h
    by_cases hcond : s.isOpen = true ∧ (s.locked = false ∨ s.pending = 0)
    · rw [if_pos hcond] at h
      cases hq : s.queue with
      | nil => rw [hq] at h; simp at h
      | cons it rest =>
        rw [hq] at h
        simp only at h
        by_cases hbr : it.exclusive = true ∧ 0 < s.pending
        · rw [if_pos hbr] at h; simp at h
        · rw [if_neg hbr] at h
          by_cases hex2 : it.exclusive = true
          · rw [if_pos hex2] at h
            rw [List.mem_singleton] at h
            have hpb : pb = s.pending := by
              injection h with h1 h2
            have hp0 : s.pending = 0 := by
              by_contra hp
              exact hbr ⟨hex2, Nat.pos_of_ne_zero hp⟩
            rw [hpb, hp0]
          · rw [if_neg hex2] at h
            rw [List.mem_cons] at h
            rcases h with h | h
            · injection h with h1 h2
              subst h1
              exact absurd hex hex2
            · exact ih _ j pb h hex
    · rw [if_neg hcond] at h
      simp at h

theorem run_not_mem_cleanDb (s : DbState) (j : Item) (pb : Nat) :
    Ev.run j pb ∉ (cleanDb s).2 := by
  intro h
  simp only [cleanDb, List.mem_append] at h
  rcases h with h | h
  · rw [List.mem_filterMap] at h
    obtain ⟨a, _, ha⟩ := h
    cases hcb : a.hasCb <;> rw [hcb] at ha <;> simp at ha
  · split at h <;> simp at h

theorem run_excl_pending_process (s : DbState) (j : Item) (pb : Nat)
    (h : Ev.run j pb ∈ (process s).2) (hex : j.exclusive = true) : pb = 0 := by
  unfold process at h
  split at h
  · exact absurd h (run_not_mem_cleanDb s j pb)
  · exact run_excl_pending_processGo _ s j pb h hex

theorem run_excl_pending_schedule (s : DbState) (it j : Item) (pb : Nat)
    (h : Ev.run j pb ∈ (schedule it s).2) (hex : j.exclusive = true) : pb = 0 := by
  unfold schedule at h
  split at h
  · rw [List.mem_singleton] at h
    split at h <;> simp at h
  · split at h
    · simp at h
    · rename_i hnc hncond
      rw [List.mem_singleton] at h
      injection h with h1 h2
      subst h1
      have hp0 : s.pending = 0 := by
        by_contra hp
        exact hncond (Or.inr ⟨Or.inr (Or.inl hex), Nat.pos_of_ne_zero hp⟩)
      rw [h2]
      exact hp0

theorem runsOf_append (a b : List Ev) : runsOf (a ++ b) = runsOf a ++ runsOf b := by
  simp [runsOf, List.filterMap_append]

theorem runsOf_cleanDb (s : DbState) : runsOf (cleanDb s).2 = [] := by
  simp only [cleanDb]
  rw [runsOf_append, runsOf_filterMap_cbErr]
  split <;> rfl

theorem no_start_while_locked_pending_schedule (t : DbState) (it : Item)
    (hl : t.locked = true) (hp : 0 < t.pending) :
    runsOf (schedule it t).2 = [] := by
  unfold schedule
  split
  · split <;> rfl
  · rw [if_pos (Or.inr ⟨Or.inl hl, hp⟩)]
    rfl

theorem no_start_while_locked_pending_process (t : DbState)
    (hl : t.locked = true) (hp : 0 < t.pending) :
    runsOf (process t).2 = [] := by
  unfold process
  split
  · exact runsOf_cleanDb t
  · cases hn : t.queue.length with
    | zero => rfl
    | succ n =>
      simp only [processGo]
      rw [if_neg ?_]
      · rfl
      · rintro ⟨-, h2⟩
        rcases h2 with h2 | h2
        · rw [hl] at h2
          exact absurd h2 (by simp)
        · omega

/-- Counterexample to C2 as stated.  The state `open ∧ locked ∧
pending = 0` — reached by completing the open and then submitting an
exclusive operation (e.g. `exec`), whose dispatch set `locked = true`
with `pending` untouched and whose completion step has not yet run, so
the exclusive blocking work is still on the thread pool — is reachable
by the claim's own steps and has `is_locked` true; yet
`Database::Schedule` (database.cc:95-101) starts a non-exclusive
submission immediately in that state, because `(locked || exclusive ||
serialize) && pending > 0` fails with `pending = 0`: the non-exclusive
item's blocking callback is invoked, overlapping the in-flight exclusive
operation.  So "while is_locked is true no non-exclusive work item
starts executing" is false of the code. -/
theorem nonexclusive_start_while_locked_counterexample :
    DbReach ⟨true, true, 0, false, []⟩ ∧
    (⟨true, true, 0, false, []⟩ : DbState).locked = true ∧
    (⟨1, false, true, true⟩ : Item).exclusive = false ∧
    runsOf (schedule ⟨1, false, true, true⟩ ⟨true, true, 0, false, []⟩).2
      = [⟨1, false, true, true⟩] := by
  refine ⟨?_, rfl, rfl, rfl⟩
  have h1 : DbStep dbInit ⟨true, false, 0, false, []⟩ := DbStep.openDone dbInit
  have h2 : DbStep ⟨true, false, 0, false, []⟩ ⟨true, true, 0, false, []⟩ :=
    DbStep.submit ⟨true, false, 0, false, []⟩ ⟨2, true, false, true⟩ (by simp)
  exact Relation.ReflTransGen.tail
    (Relation.ReflTransGen.tail Relation.ReflTransGen.refl h1) h2

/-- C2, amended: in every state reachable from the initial database state
by submit, drain and completion steps, `pending > 0` implies `locked` is
false, and an exclusive item's blocking callback is only ever invoked
with `pending = 0` (recorded in the run event).  The non-exclusive half
of the barrier holds only in this weaker form: neither
`Database::Schedule` nor `Database::Process` starts any work item while
`locked` is true and `pending > 0` — while `locked` true with
`pending = 0` (an exclusive operation in flight) does not stop a
non-exclusive submission from starting immediately, per the
counterexample. -/
theorem reachable_exclusivity_amended (s : DbState) (h : DbReach s) :
    (0 < s.pending → s.locked = false) ∧
    (∀ (t : DbState) (it : Item), t.locked = true → 0 < t.pending →
      runsOf (schedule it t).2 = []) ∧
    (∀ t : DbState, t.locked = true → 0 < t.pending →
      runsOf (process t).2 = []) ∧
    (∀ (t : DbState) (j : Item) (pb : Nat),
      Ev.run j pb ∈ (process t).2 → j.exclusive = true → pb = 0) ∧
    (∀ (t : DbState) (it j : Item) (pb : Nat),
      Ev.run j pb ∈ (schedule it t).2 → j.exclusive = true → pb = 0) :=
  ⟨(dbInv_reach s h).1, no_start_while_locked_pending_schedule,
    no_start_while_locked_pending_process,
    run_excl_pending_process, run_excl_pending_schedule⟩

/-- Witness for the amended C2 at concrete states: the post-open state
with one dispatched statement item is reachable and unlocked, and a
locked state with `pending = 1` starts nothing, on submission or on
drain. -/
theorem reachable_exclusivity_amended_witness :
    (⟨true, false, 1, false, []⟩ : DbState).locked = false ∧
    runsOf (schedule ⟨3, false, true, true⟩ ⟨true, true, 1, false, []⟩).2 = [] ∧
    runsOf (process ⟨true, true, 1, false, []⟩).2 = [] := by
  have h1 : DbStep dbInit ⟨true, false, 0, false, []⟩ := DbStep.openDone dbInit
  have h2 : DbStep ⟨true, false, 0, false, []⟩ ⟨true, false, 1, false, []⟩ :=
    DbStep.submit ⟨true, false, 0, false, []⟩ ⟨1, false, true, true⟩ (by simp)
  have hreach : DbReach ⟨true, false, 1, false, []⟩ :=
    Relation.ReflTransGen.tail (Relation.ReflTransGen.tail Relation.ReflTransGen.refl h1) h2
  exact ⟨(reachable_exclusivity_amended _ hreach).1 (by simp),
    (reachable_exclusivity_amended _ hreach).2.1 ⟨true, true, 1, false, []⟩
      ⟨3, false, true, true⟩ rfl (by simp),
    (reachable_exclusivity_amended _ hreach).2.2.1 ⟨true, true, 1, false, []⟩ rfl (by simp)⟩

/-- Inductive invariant of a serialized run: the database stays open with
`serialize` on; the submission history splits into completed, in-flight
and queued ids in that order; `pending` counts the in-flight items, of
which there is at most one; queued items were promoted to exclusive
(database.cc:96) and dispatch statement work; and the queue can only be
non-empty while something is in flight. -/
def SerInv (σ : Sys) : Prop :=
  σ.db.isOpen = true ∧ σ.db.serialize = true ∧
  σ.submitted
      = σ.completedIds ++ σ.inflight.map (fun it => it.id) ++ σ.db.queue.map (fun it => it.id) ∧
  σ.db.pending = σ.inflight.length ∧
  σ.inflight.length ≤ 1 ∧
  (∀ it ∈ σ.inflight, it.dispatch = true) ∧
  (∀ it ∈ σ.db.queue, it.exclusive = true ∧ it.dispatch = true) ∧
  (σ.db.pending = 0 → σ.db.queue = [])

theorem serInv_init : SerInv serInit := by
  refine ⟨rfl, rfl, rfl, rfl, by simp [serInit], ?_, ?_, fun _ => rfl⟩ <;>
    · intro it hit
      simp [serInit] at hit

theorem serInv_submit (σ : Sys) (id : Nat) (h : SerInv σ) :
    SerInv (submitSys (serItem id) σ) := by
  obtain ⟨hop, hser, hord, hpen, hlen, hdisp, hqprop, hq0⟩ := h
  unfold submitSys
  by_cases hp : 0 < σ.db.pending
  · have heq : schedule (serItem id) σ.db
        = ({ σ.db with queue := σ.db.queue ++ [⟨id, true, true, true⟩] }, []) := by
      unfold schedule
      rw [if_neg (by simp [hop]), if_pos (Or.inr ⟨Or.inr (Or.inr hser), hp⟩)]
      simp [serItem, hser]
    rw [heq]
    refine ⟨hop, hser, ?_, ?_, ?_, ?_, ?_, ?_⟩
    · simp only [runsOf, List.filterMap_nil, List.append_nil]
      rw [hord]
      simp [serItem]
    · simpa [runsOf] using hpen
    · simpa [runsOf] using hlen
    · simpa [runsOf] using hdisp
    · intro j hj
      simp only [List.mem_append, List.mem_singleton] at hj
      rcases hj with hj | hj
      · exact hqprop j hj
      · subst hj
        exact ⟨rfl, rfl⟩
    · intro h0
      simp only at h0
      omega
  · have hp0 : σ.db.pending = 0 := by omega
    have hqe : σ.db.queue = [] := hq0 hp0
    have hinf : σ.inflight = [] := by
      have : σ.inflight.length = 0 := by omega
      exact List.eq_nil_of_length_eq_zero this
    have heq : schedule (serItem id) σ.db
        = (startItem (serItem id) σ.db, [Ev.run (serItem id) σ.db.pending]) := by
      unfold schedule
      rw [if_neg (by simp [hop]), if_neg ?_]
      rintro (hA | hB)
      · rw [hop] at hA
        simp at hA
      · exact absurd hB.2 (by omega)
    rw [heq]
    refine ⟨hop, hser, ?_, ?_, ?_, ?_, ?_, ?_⟩
    · rw [hord, hinf, hqe]
      simp [runsOf, serItem, startItem, hqe]
    · simp [startItem, hinf, hp0, serItem, runsOf]
    · simp [hinf, runsOf]
    · intro j hj
      rw [hinf] at hj
      simp only [List.nil_append, runsOf, List.filterMap_cons, List.filterMap_nil] at hj
      rw [List.mem_singleton] at hj
      subst hj
      rfl
    · intro j hj
      simp only [startItem] at hj
      exact hqprop j (by simp [hqe] at hj)
    · intro h0
      simp [startItem, serItem] at h0

theorem process_pending0_nil (s : DbState) (hop : s.isOpen = true)
    (hq : s.queue = []) : process s = (s, []) := by
  unfold process
  rw [if_neg (by simp [hop])]
  rw [hq]
  rfl

theorem process_pending0_cons (s : DbState) (hop : s.isOpen = true)
    (hp : s.pending = 0) (q1 : Item) (rest : List Item)
    (hq : s.queue = q1 :: rest) (hq1 : q1.exclusive = true) :
    process s = (startItem q1 { s with queue := rest }, [Ev.run q1 0]) := by
  unfold process
  rw [if_neg (by simp [hop])]
  rw [hq, List.length_cons]
  simp only [processGo]
  rw [if_pos ⟨hop, Or.inr hp⟩, hq]
  simp only
  rw [if_neg (by simp [hp]), if_pos hq1, hp]

theorem serInv_complete (σ : Sys) (it : Item) (hmem : it ∈ σ.inflight)
    (h : SerInv σ) : SerInv (completeSys it σ) := by
  obtain ⟨hop, hser, hord, hpen, hlen, hdisp, hqprop, hq0⟩ := h
  have hinf : σ.inflight = [it] := by
    cases hi : σ.inflight with
    | nil => rw [hi] at hmem; exact absurd hmem (List.not_mem_nil it)
    | cons a tl =>
      rw [hi] at hmem hlen
      have htl : tl = [] := by
        rw [List.length_cons] at hlen
        exact List.eq_nil_of_length_eq_zero (by omega)
      subst htl
      rw [List.mem_singleton] at hmem
      rw [hmem]
  have hdit : it.dispatch = true := hdisp it hmem
  have hp1 : σ.db.pending = 1 := by rw [hpen, hinf]; rfl
  have hdb1 : (if it.dispatch = true then { σ.db with pending := σ.db.pending - 1 } else σ.db)
      = { σ.db with pending := 0 } := by
    rw [if_pos hdit, hp1]
  unfold completeSys
  rw [hdb1]
  dsimp only
  cases hq : σ.db.queue with
  | nil =>
    rw [process_pending0_nil ⟨σ.db.isOpen, σ.db.locked, 0, σ.db.serialize, []⟩ hop rfl]
    refine ⟨by simpa using hop, by simpa using hser, ?_, ?_, ?_, ?_, ?_, ?_⟩
    · rw [hord, hinf, hq]
      simp [runsOf]
    · simp [runsOf, hinf]
    · simp [runsOf, hinf]
    · intro j hj
      rw [hinf] at hj
      simp [runsOf] at hj
    · intro j hj
      exact absurd hj (List.not_mem_nil j)
    · intro _
      rfl
  | cons q1 rest =>
    have hq1 : q1.exclusive = true :=
      (hqprop q1 (by rw [hq]; exact List.mem_cons_self _ _)).1
    have hq1d : q1.dispatch = true :=
      (hqprop q1 (by rw [hq]; exact List.mem_cons_self _ _)).2
    rw [process_pending0_cons ⟨σ.db.isOpen, σ.db.locked, 0, σ.db.serialize, q1 :: rest⟩ hop rfl
        q1 rest rfl hq1]
    refine ⟨by simpa [startItem] using hop, by simpa [startItem] using hser, ?_, ?_, ?_, ?_, ?_, ?_⟩
    · rw [hord, hinf, hq]
      simp [runsOf, startItem]
    · simp [runsOf, hinf, startItem, hq1d]
    · simp [runsOf, hinf]
    · intro j hj
      rw [hinf] at hj
      simp [runsOf] at hj
      rw [hj]
      exact hq1d
    · intro j hj
      simp only [startItem] at hj
      exact hqprop j (by rw [hq]; exact List.mem_cons_of_mem _ hj)
    · intro h0
      simp [startItem, hq1d] at h0

theorem serInv_step {σ τ : Sys} (hst : SerStep σ τ) (h : SerInv σ) : SerInv τ := by
  cases hst with
  | submit id => exact serInv_submit σ id h
  | complete it hm => exact serInv_complete σ it hm h

theorem serInv_reach (σ : Sys) (h : SerReach σ) : SerInv σ := by
  induction h with
  | refl => exact serInv_init
  | tail _ hbc ih => exact serInv_step hbc ih

/-- C8: in a serialized run — `serialize` on, statement-work submissions,
completions of in-flight work — every submission behaves as exclusive:
enqueued items are promoted to exclusive (database.cc:96), at most one
item is ever in flight, and once the system is idle the completion
callbacks have fired exactly in submission order. -/
theorem serialized_fifo (σ : Sys) (h : SerReach σ) (hidle : σ.inflight = []) :
    σ.completedIds = σ.submitted := by
  obtain ⟨hop, hser, hord, hpen, hlen, hdisp, hqprop, hq0⟩ := serInv_reach σ h
  have hp0 : σ.db.pending = 0 := by rw [hpen, hidle]; rfl
  have hqe : σ.db.queue = [] := hq0 hp0
  rw [hord, hidle, hqe]
  simp

/-- Witness for C8: two serialized submissions complete in submission
order; the second was queued (promoted to exclusive) while the first was
in flight and started only at the first one's completion. -/
theorem serialized_fifo_witness :
    (completeSys ⟨7, true, true, true⟩ (completeSys (serItem 5)
        (submitSys (serItem 7) (submitSys (serItem 5) serInit)))).completedIds
      = (completeSys ⟨7, true, true, true⟩ (completeSys (serItem 5)
          (submitSys (serItem 7) (submitSys (serItem 5) serInit)))).submitted := by
  refine serialized_fifo _ ?_ (by decide)
  refine Relation.ReflTransGen.tail (Relation.ReflTransGen.tail
    (Relation.ReflTransGen.tail (Relation.ReflTransGen.tail Relation.ReflTransGen.refl
      (SerStep.submit serInit 5))
      (SerStep.submit (submitSys (serItem 5) serInit) 7))
    (SerStep.complete (submitSys (serItem 7) (submitSys (serItem 5) serInit))
      (serItem 5) (by decide)))
    (SerStep.complete (completeSys (serItem 5)
        (submitSys (serItem 7) (submitSys (serItem 5) serInit)))
      ⟨7, true, true, true⟩ (by decide))

/-- Inductive invariant of the streaming consumer: the `retrieved` counter
equals the number of rows passed to the item callback; without an item
callback nothing is ever delivered; after `uv_close` the consumer is idle
and nothing more is delivered, so every reported terminal count equals the
final number of delivered rows; and the delivering state is only entered
when the item callback is a function. -/
def EachInv (b : Bool) (s : EachState) : Prop :=
  s.itemCb = b ∧
  s.retrieved = s.delivered.length ∧
  (b = false → s.delivered = []) ∧
  (s.closed = true → s.pc = EachPC.idle) ∧
  (s.terminalCounts ≠ [] → s.closed = true) ∧
  (∀ c ∈ s.terminalCounts, c = s.delivered.length) ∧
  (∀ rows, s.pc = EachPC.delivering rows → s.itemCb = true)

theorem eachInv_step (b : Bool) (a : EachAct) (s t : EachState)
    (h : eachStep a s = some t) (hinv : EachInv b s) : EachInv b t := by
  obtain ⟨h1, h2, h3, h4, h5, h6, h7⟩ := hinv
  cases a with
  | produceRow =>
    simp only [eachStep] at h
    cases he : s.toEmit with
    | nil => rw [he] at h; exact absurd h (by simp)
    | cons r rest =>
      rw [he] at h
      injection h with h
      subst h
      exact ⟨h1, h2, h3, h4, h5, h6, h7⟩
  | produceDone =>
    simp only [eachStep] at h
    split at h
    · injection h with h
      subst h
      exact ⟨h1, h2, h3, h4, h5, h6, h7⟩
    · exact absurd h (by simp)
  | startWakeup =>
    simp only [eachStep] at h
    split at h
    · rename_i hg
      injection h with h
      subst h
      refine ⟨h1, h2, h3, ?_, ?_, h6, ?_⟩
      · intro hc
        simp only at hc
        rw [hg.2.2] at hc
        exact absurd hc (by simp)
      · intro hn
        exact absurd (h5 hn) (by simp [hg.2.2])
      · intro rows hpc
        simp at hpc
    · exact absurd h (by simp)
  | swapStep =>
    simp only [eachStep] at h
    split at h
    · rename_i hg
      injection h with h
      subst h
      by_cases hb : s.buffer = []
      · rw [if_pos hb]
        refine ⟨h1, h2, h3, ?_, h5, h6, ?_⟩
        · intro hc
          exact absurd (h4 hc) (by rw [hg]; simp)
        · intro rows hpc
          simp at hpc
      · rw [if_neg hb]
        by_cases hcb : s.itemCb = true
        · rw [if_pos hcb]
          refine ⟨h1, h2, h3, ?_, h5, h6, ?_⟩
          · intro hc
            exact absurd (h4 hc) (by rw [hg]; simp)
          · intro rows _
            exact hcb
        · rw [if_neg hcb]
          refine ⟨h1, h2, h3, ?_, h5, h6, ?_⟩
          · intro hc
            exact absurd (h4 hc) (by rw [hg]; simp)
          · intro rows hpc
            simp at hpc
    · exact absurd h (by simp)
  | deliverOne =>
    simp only [eachStep] at h
    cases hpc : s.pc with
    | delivering rows =>
      cases hr : rows with
      | nil => rw [hpc, hr] at h; exact absurd h (by simp)
      | cons r rest =>
        rw [hpc, hr] at h
        injection h with h
        subst h
        have hcb : s.itemCb = true := h7 (r :: rest) (by rw [hpc, hr])
        have hterm : s.terminalCounts = [] := by
          by_contra hn
          have := h4 (h5 hn)
          rw [hpc] at this
          simp at this
        refine ⟨h1, ?_, ?_, ?_, ?_, ?_, ?_⟩
        · simp [h2]
        · intro hb
          rw [hb] at h1
          exact absurd (h1.symm.trans hcb) (by simp)
        · intro hc
          have := h4 hc
          rw [hpc] at this
          simp at this
        · intro hn
          simp only at hn
          rw [hterm] at hn
          exact absurd rfl hn
        · intro c hc
          simp only at hc
          rw [hterm] at hc
          exact absurd hc (List.not_mem_nil c)
        · intro rows2 hpc2
          exact hcb
    | idle => rw [hpc] at h; exact absurd h (by simp)
    | loopTop => rw [hpc] at h; exact absurd h (by simp)
    | afterLoop => rw [hpc] at h; exact absurd h (by simp)
  | checkDone =>
    simp only [eachStep] at h
    split at h
    · rename_i hg
      injection h with h
      subst h
      by_cases hc : s.completed = true
      · rw [if_pos hc]
        refine ⟨h1, h2, h3, fun _ => rfl, fun _ => rfl, ?_, ?_⟩
        · intro c hcm
          simp only [List.mem_append] at hcm
          rcases hcm with hcm | hcm
          · exact h6 c hcm
          · split at hcm
            · rw [List.mem_singleton] at hcm
              rw [hcm]
              exact h2
            · exact absurd hcm (List.not_mem_nil c)
        · intro rows hpc
          simp at hpc
      · rw [if_neg hc]
        refine ⟨h1, h2, h3, fun _ => rfl, ?_, h6, ?_⟩
        · intro hn
          exact h5 hn
        · intro rows hpc
          simp at hpc
    · exact absurd h (by simp)

theorem eachInv_init (rows : List Nat) (b cb : Bool) :
    EachInv b (eachInit rows b cb) := by
  refine ⟨rfl, rfl, fun _ => rfl, ?_, ?_, ?_, ?_⟩
  · intro hc
    simp [eachInit] at hc
  · intro hn
    exact absurd rfl hn
  · intro c hc
    exact absurd hc (List.not_mem_nil c)
  · intro r hpc
    simp [eachInit] at hpc

theorem eachInv_reach (rows : List Nat) (b cb : Bool) (s : EachState)
    (h : EachReach rows b cb s) : EachInv b s := by
  induction h with
  | refl => exact eachInv_init rows b cb
  | tail _ hbc ih =>
    obtain ⟨a, ha⟩ := hbc
    exact eachInv_step b a _ _ ha ih

theorem eachSteps_of_run (acts : List EachAct) :
    ∀ t s : EachState, eachRun acts t = some s →
      Relation.ReflTransGen EachStep t s := by
  induction acts with
  | nil =>
    intro t s h
    injection h with h
    subst h
    exact Relation.ReflTransGen.refl
  | cons a rest ih =>
    intro t s h
    simp only [eachRun, List.foldlM_cons] at h
    cases hstep : eachStep a t with
    | none => rw [hstep] at h; exact absurd h (by simp)
    | some u =>
      rw [hstep] at h
      exact Relation.ReflTransGen.head ⟨a, hstep⟩ (ih u s h)

theorem eachReach_of_run (rows : List Nat) (b cb : Bool) (acts : List EachAct)
    (s : EachState) (h : eachRun acts (eachInit rows b cb) = some s) :
    EachReach rows b cb s :=
  eachSteps_of_run acts _ s h

/-- C10: in every reachable state of the streaming system, the
`retrieved` counter equals the number of rows actually passed to a
per-item callback; when the per-item callback is not a function, swapped
rows are dropped — nothing is ever delivered and the counter stays zero —
and every count reported to the terminal callback equals the number of
delivered rows, not the number of rows produced. -/
theorem each_delivery_counts (rows : List Nat) (b cb : Bool) (s : EachState)
    (h : EachReach rows b cb s) :
    s.retrieved = s.delivered.length ∧
    (b = false → s.delivered = [] ∧ s.retrieved = 0) ∧
    (∀ c ∈ s.terminalCounts, c = s.delivered.length) := by
  obtain ⟨h1, h2, h3, h4, h5, h6, h7⟩ := eachInv_reach rows b cb s h
  refine ⟨h2, fun hb => ⟨h3 hb, ?_⟩, h6⟩
  rw [h2, h3 hb]
  rfl

/-- Witness for C10: a full run without an item callback — two rows are
produced and swapped out, yet nothing is delivered and the terminal
callback reports 0. -/
theorem each_delivery_counts_witness :
    ({ toEmit := [], buffer := [], completed := true, retrieved := 0,
       delivered := [], terminalCounts := [0], closed := true,
       wakeupPending := false, itemCb := false, completedCb := true,
       pc := EachPC.idle } : EachState).delivered = [] ∧
    ({ toEmit := [], buffer := [], completed := true, retrieved := 0,
       delivered := [], terminalCounts := [0], closed := true,
       wakeupPending := false, itemCb := false, completedCb := true,
       pc := EachPC.idle } : EachState).retrieved = 0 :=
  (each_delivery_counts [10, 20] false true _
    (eachReach_of_run [10, 20] false true
      [EachAct.produceRow, EachAct.produceRow, EachAct.produceDone,
       EachAct.startWakeup, EachAct.swapStep, EachAct.swapStep, EachAct.checkDone]
      _ rfl)).2.1 rfl

/-- C7: the streaming guarantee fails on the code.  In the interleaving in
which the producer pushes its last row and sets `completed` between the
consumer's final empty swap and the consumer's `async->completed` check,
`AsyncEach` (statement.cc:701-712) fires the terminal callback and closes
the handle even though a row is still in the buffer: of 2 produced rows
only 1 is delivered, the terminal callback reports 1, and no further step
is enabled (the pending wake-up is discarded by `uv_close`).  Under the
spec's consumer, which rechecks that the buffer is empty before firing the
terminal callback, the same schedule delivers both rows and reports 2. -/
theorem each_lost_row_on_done_race :
    (eachRun [EachAct.produceRow, EachAct.startWakeup, EachAct.swapStep,
              EachAct.deliverOne, EachAct.swapStep, EachAct.produceRow,
              EachAct.produceDone, EachAct.checkDone]
        (eachInit [10, 20] true true)
      = some { toEmit := [], buffer := [20], completed := true, retrieved := 1,
               delivered := [10], terminalCounts := [1], closed := true,
               wakeupPending := true, itemCb := true, completedCb := true,
               pc := EachPC.idle }) ∧
    (∀ a : EachAct, eachStep a
        { toEmit := [], buffer := [20], completed := true, retrieved := 1,
          delivered := [10], terminalCounts := [1], closed := true,
          wakeupPending := true, itemCb := true, completedCb := true,
          pc := EachPC.idle } = none) ∧
    (eachRunSpec [EachAct.produceRow, EachAct.startWakeup, EachAct.swapStep,
                  EachAct.deliverOne, EachAct.swapStep, EachAct.produceRow,
                  EachAct.produceDone, EachAct.checkDone, EachAct.startWakeup,
                  EachAct.swapStep, EachAct.deliverOne, EachAct.swapStep,
                  EachAct.checkDone]
        (eachInit [10, 20] true true)
      = some { toEmit := [], buffer := [], completed := true, retrieved := 2,
               delivered := [10, 20], terminalCounts := [2], closed := true,
               wakeupPending := false, itemCb := true, completedCb := true,
               pc := EachPC.idle }) := by
  refine ⟨rfl, ?_, rfl⟩
  intro a
  cases a <;> rfl

end NodeSqlite3
